import Mathlib

/-!
Verification of the `dupescout` duplicate-file search engine
(`dupescout.go`) against its natural-language specification.

The Go code is shallowly embedded: the pair channel becomes the list of
pairs the aggregator consumes, the concurrent aggregation map becomes an
association list whose iteration order is kept abstract (a permutation of
its keys), goroutine/channel temporal structure of `run` becomes an
explicit program-order event trace, and fallible Go functions return
`Except`.
-/

namespace Dupescout

/-- A `(key, path)` pair, as produced by `producePair` and consumed by
`consumePairs` (`type pair struct` in dupescout.go). -/
structure Pair where
  key : String
  path : String
deriving DecidableEq, Repr

/-- The result of `fi.Size()` for a file (`os.FileInfo`); only the size is
ever consulted by the walker. -/
structure FileInfo where
  size : Int
deriving DecidableEq, Repr

/-- The fields of `os.DirEntry` consulted by the walk callback in `search`:
`de.IsDir()`, `de.Type().IsRegular()` and the fallible `de.Info()`. -/
structure DirEntry where
  isDir : Bool
  isRegular : Bool
  info : Except String FileInfo
deriving Repr

/-- The configuration consulted by the embedded code paths: the single root
`c.Path` that `run` hands to `search`, the two filter predicates
(`c.skipDir`, `c.skipFile`), the key generator and the worker limit.
The filter predicates and key generators live in files outside the core
(`filters.go`, `keygenerators.go`); per the spec they are external
collaborators, so they are plain function fields here. -/
structure Cfg where
  path : String
  skipDir : String → Bool
  skipFile : String → Bool
  keyGenerator : String → Except String String
  workers : Nat

/-- The aggregation map of `consumePairs` (`xsync.MapOf[string, []string]`),
embedded as an association list from keys to the list of paths stored for
that key.  The list order of entries carries no meaning: the concurrent
map's `Range` iterates in an unspecified order, which theorems model by
quantifying over permutations of the key set. -/
abbrev AggMap : Type := List (String × List String)

/-- `m.Load(k)` on the aggregation map. -/
def lookupMap (m : AggMap) (k : String) : Option (List String) :=
  ((m : List (String × List String)).find? (fun e => e.1 == k)).map (·.2)

/-- `m.Store(k, v)` on the aggregation map: the entry for `k` is replaced
(extensionally: any old binding of `k` is removed and `(k, v)` is bound). -/
def storeMap (m : AggMap) (k : String) (v : List String) : AggMap :=
  (m : List (String × List String)).filter (fun e => e.1 != k) ++ [(k, v)]

/-- The paths the streaming branch of `consumePairs` sends for one pair
whose key was already present with stored paths `paths`:
`if len(paths) == 1 { dupesChan <- paths[0] }; dupesChan <- p.path`. -/
def streamEmits (paths : List String) (newPath : String) : List String :=
  (if paths.length = 1 then [paths.getD 0 ""] else []) ++ [newPath]

/-- One iteration of the `for p := range dup.pairs` loop of `consumePairs`:
returns the updated aggregation map together with the paths sent to
`dupesChan` in streaming mode (the map update is identical in batch mode;
the `streaming` flag only guards the sends). -/
def streamStep (m : AggMap) (p : Pair) : AggMap × List String :=
  match lookupMap m p.key with
  | some paths => (storeMap m p.key (paths ++ [p.path]), streamEmits paths p.path)
  | none => (storeMap m p.key [p.path], [])

/-- The aggregation map after `consumePairs` has consumed the pairs `ps`,
starting from map `m`. -/
def buildMap (m : AggMap) (ps : List Pair) : AggMap :=
  ps.foldl (fun m p => (streamStep m p).1) m

/-- The aggregation map at the end of a run in which the pair channel
delivered exactly the pairs `ps` (the map starts empty). -/
def finalMap (ps : List Pair) : AggMap :=
  buildMap [] ps

/-- All paths sent to `dupesChan` by the streaming loop of `consumePairs`
while consuming `ps` from map state `m`, in emission order. -/
def consumeStream : AggMap → List Pair → List String
  | _, [] => []
  | m, p :: ps => (streamStep m p).2 ++ consumeStream (streamStep m p).1 ps

/-- An observable action of the streaming consumer on `dupesChan`. -/
inductive StreamEvent where
  | emit (path : String)
  | closeChan
deriving DecidableEq, Repr

/-- The full event trace of `consumePairs` in streaming mode on the
channel `dupesChan`: the per-pair sends of the loop, then the final
`close(dupesChan)` once the pair channel is exhausted. -/
def streamRun : AggMap → List Pair → List StreamEvent
  | _, [] => [StreamEvent.closeChan]
  | m, p :: ps => (streamStep m p).2.map StreamEvent.emit ++ streamRun (streamStep m p).1 ps

/-- A Go slice of strings: `isNil` distinguishes the `nil` slice from the
empty non-nil slice `[]string\x7b\x7d`. -/
structure GoSlice where
  isNil : Bool
  elems : List String
deriving DecidableEq, Repr

/-- `res = append(res, paths...)`: appending a non-empty list to any slice
yields a non-nil slice. -/
def GoSlice.appendAll (s : GoSlice) (l : List String) : GoSlice :=
  ⟨s.isNil && l.isEmpty, s.elems ++ l⟩

/-- The body of the `m.Range` callback in `processResults`, applied to the
accumulated slice `res` and the visited key `k`. -/
def rangeStep (m : AggMap) (res : GoSlice) (k : String) : GoSlice :=
  match lookupMap m k with
  | some paths => if 1 < paths.length then res.appendAll paths else res
  | none => res

/-- `processResults(m)`: starting from the empty non-nil slice
`res := []string\x7b\x7d`, `m.Range` visits every key once, in the
unspecified iteration order `order`, appending every group with more than
one path. -/
def processResults (m : AggMap) (order : List String) : GoSlice :=
  order.foldl (rangeStep m) (GoSlice.mk false [])

/-- The error message `fmt.Errorf("key generator returned an empty key for
path: %s", path)` of `producePair`. -/
def emptyKeyMsg (path : String) : String :=
  "key generator returned an empty key for path: " ++ path

/-- `producePair`: checks the cooperative cancellation flag, invokes the
key generator, rejects empty keys, and otherwise yields the pair sent to
the pairs channel (`some pair`; `none` means no pair was emitted). -/
def producePair (shuttingDown : Bool) (keyGen : String → Except String String)
    (path : String) : Except String (Option Pair) :=
  if shuttingDown then Except.ok none
  else
    match keyGen path with
    | Except.error e => Except.error e
    | Except.ok key =>
      if key = "" then Except.error (emptyKeyMsg path)
      else Except.ok (some ⟨key, path⟩)

/-- The value the `filepath.WalkDir` callback in `search` returns for one
entry. -/
inductive WalkResult where
  | cont
  | skipDir
  | fail (e : String)
deriving DecidableEq, Repr

/-- The `filepath.WalkDir` callback of `search`, for one visited entry:
returns the walk control result together with whether a `producePair` task
was submitted to the worker pool (`dup.g.Go`). -/
def walkCallback (shuttingDown : Bool) (c : Cfg) (path : String) (de : DirEntry)
    (err : Option String) : WalkResult × Bool :=
  if shuttingDown then (WalkResult.cont, false)
  else
    match err with
    | some e => (WalkResult.fail e, false)
    | none =>
      if de.isDir && c.skipDir path then (WalkResult.skipDir, false)
      else if de.isRegular && !c.skipFile path then
        match de.info with
        | Except.error _ => (WalkResult.cont, false)
        | Except.ok fi =>
          if fi.size = 0 then (WalkResult.cont, false)
          else (WalkResult.cont, true)
      else (WalkResult.cont, false)

/-- The walker tasks `run` submits to the worker pool: exactly one call
`dup.search(c.Path, &c)`, identified by its root directory argument. -/
def runSubmittedWalks (c : Cfg) : List String :=
  [c.path]

/-- The program-order steps of `run` after the delivery mode is chosen. -/
inductive RunEvent where
  | spawnConsumer (streaming : Bool)
  | spawnShutdownListener
  | submitSearch
  | waitPool
  | closePairs
  | ret
deriving DecidableEq, Repr

/-- The program-order event trace of `run`: launch the consumer goroutine,
launch the shutdown listener, submit the search to the pool, block on
`dup.g.Wait()`, `close(dup.pairs)`, then return. -/
def runTrace (streaming : Bool) : List RunEvent :=
  [RunEvent.spawnConsumer streaming, RunEvent.spawnShutdownListener,
   RunEvent.submitSearch, RunEvent.waitPool, RunEvent.closePairs, RunEvent.ret]

/-- `run`'s delivery-mode selection: streaming when `dupesChan` is non-nil,
batch when `resultsChan` is non-nil, otherwise the sanity-check error. -/
def runModel (hasResultsChan hasDupesChan : Bool) : Except String (List RunEvent) :=
  if hasDupesChan then Except.ok (runTrace true)
  else if hasResultsChan then Except.ok (runTrace false)
  else Except.error "either resultsChan or dupesChan must be provided"

/-- `GetResults` as observed by the caller: the batch result slice produced
by `processResults` over the final aggregation map (in iteration order
`order`), delivered alongside the pool error `poolErr`; the consumer sends
the result after the pair channel closes, also when the pool returned an
error, so the receive always completes. -/
def GetResultsModel (poolErr : Option String) (ps : List Pair)
    (order : List String) : GoSlice × Option String :=
  (processResults (finalMap ps) order, poolErr)

/-- The paths carried by the pairs in `ps` whose key is `k`, in consumption
order (the discovery order of that key's group). -/
def pathsOfKey (k : String) (ps : List Pair) : List String :=
  (ps.filter (fun p => p.key == k)).map (·.path)

/-- The keys of `ps` in discovery order (first occurrence order). -/
def discoveryKeys (ps : List Pair) : List String :=
  ps.foldl (fun acc p => if p.key ∈ acc then acc else acc ++ [p.key]) []

/-- Modelled from the spec (§4.4): the batch output the specification
describes — every group with at least two members, groups concatenated in
key discovery order, paths within a group in discovery order.  Stated for
comparison with `processResults`, whose group order is the concurrent
map's unspecified `Range` order. -/
def specBatchResult (ps : List Pair) : List String :=
  (((discoveryKeys ps).map (fun k => pathsOfKey k ps)).filter
    (fun l => 1 < l.length)).flatten

/-! ### Association-list map laws -/

/-- The keys currently bound in the aggregation map. -/
def mapKeys (m : AggMap) : List String :=
  m.map (·.1)

/-- A well-formed aggregation map: keys are bound at most once and every
stored group is non-empty (both hold for every map `consumePairs` builds). -/
def mapWF (m : AggMap) : Prop :=
  (mapKeys m).Nodup ∧ ∀ e ∈ m, e.2 ≠ []

theorem mapWF_nil : mapWF [] :=
  ⟨List.nodup_nil, fun e he => absurd he (List.not_mem_nil e)⟩

theorem find?_filter_of_imp (l : List (String × List String))
    (p q : String × List String → Bool) (h : ∀ x, p x = true → q x = true) :
    (l.filter q).find? p = l.find? p := by
  induction l with
  | nil => rfl
  | cons a t ih =>
    by_cases hq : q a
    · by_cases hp : p a
      · simp [List.filter_cons, hq, List.find?_cons, hp]
      · simp [List.filter_cons, hq, List.find?_cons, hp, ih]
    · have hp : ¬ p a = true := fun hpa => hq (h a hpa)
      simp [List.filter_cons, hq, List.find?_cons, hp, ih]

theorem lookupMap_storeMap (m : AggMap) (k : String) (v : List String) (k' : String) :
    lookupMap (storeMap m k v) k' = if k' = k then some v else lookupMap m k' := by
  unfold lookupMap storeMap
  rw [List.find?_append]
  by_cases hk : k' = k
  · subst hk
    have hnone : (m.filter (fun e => e.1 != k')).find? (fun e => e.1 == k') = none := by
      rw [List.find?_eq_none]
      intro x hx
      have := (List.mem_filter.mp hx).2
      simp only [bne_iff_ne, ne_eq] at this
      simp [this]
    simp [hnone, List.find?]
  · have heq : (m.filter (fun e => e.1 != k)).find? (fun e => e.1 == k') =
        m.find? (fun e => e.1 == k') := by
      apply find?_filter_of_imp
      intro x hx
      have : x.1 = k' := by simpa using hx
      simp [this, hk]
    have hlast : ([((k : String), v)].find? (fun e => e.1 == k')) = none := by
      rw [List.find?_eq_none]
      intro x hx
      have hx' : x = (k, v) := by simpa using hx
      subst hx'
      simp only [beq_iff_eq]
      exact fun h => hk h.symm
    cases hfound : m.find? (fun e => e.1 == k') with
    | none => simp [heq, hfound, hlast, hk]
    | some e => simp [heq, hfound, hk]

theorem lookupMap_eq_none_iff (m : AggMap) (k : String) :
    lookupMap m k = none ↔ ∀ e ∈ m, e.1 ≠ k := by
  unfold lookupMap
  simp [List.find?_eq_none]

theorem filter_eq_of_lookup_none (m : AggMap) (k : String)
    (h : lookupMap m k = none) : m.filter (fun e => e.1 != k) = m := by
  rw [List.filter_eq_self]
  intro e he
  have := (lookupMap_eq_none_iff m k).mp h e he
  simpa using this

theorem mem_of_lookupMap_eq_some (m : AggMap) (k : String) (l : List String)
    (h : lookupMap m k = some l) : ∃ e ∈ m, e.1 = k ∧ e.2 = l := by
  unfold lookupMap at h
  cases hf : m.find? (fun e => e.1 == k) with
  | none => rw [hf] at h; exact absurd h (by simp)
  | some e =>
    rw [hf] at h
    refine ⟨e, List.mem_of_find?_eq_some hf, ?_, ?_⟩
    · have := List.find?_some hf
      simpa using this
    · simpa using h

theorem lookupMap_ne_none_of_mem_keys (m : AggMap) (k : String)
    (h : k ∈ mapKeys m) : lookupMap m k ≠ none := by
  intro hnone
  obtain ⟨e, he, hek⟩ := List.mem_map.mp h
  exact (lookupMap_eq_none_iff m k).mp hnone e he hek

theorem mapKeys_storeMap (m : AggMap) (k : String) (v : List String) :
    mapKeys (storeMap m k v) = (mapKeys m).filter (fun x => x != k) ++ [k] := by
  unfold mapKeys storeMap
  induction m with
  | nil => rfl
  | cons e t ih =>
    by_cases he : e.1 != k
    · simp [List.filter_cons, he] at ih ⊢
      exact ih
    · simp [List.filter_cons, he] at ih ⊢
      exact ih

theorem mapWF_storeMap (m : AggMap) (k : String) (v : List String)
    (hm : mapWF m) (hv : v ≠ []) : mapWF (storeMap m k v) := by
  constructor
  · rw [mapKeys_storeMap]
    rw [List.nodup_append]
    refine ⟨hm.1.filter _, List.nodup_singleton k, ?_⟩
    intro x hx hk
    have hxk : x ≠ k := by simpa using (List.mem_filter.mp hx).2
    simp at hk
    exact hxk hk
  · intro e he
    rcases List.mem_append.mp he with h1 | h2
    · exact hm.2 e (List.mem_of_mem_filter h1)
    · have : e = (k, v) := by simpa using h2
      rw [this]
      exact hv

theorem mapWF_streamStep (m : AggMap) (p : Pair) (hm : mapWF m) :
    mapWF (streamStep m p).1 := by
  unfold streamStep
  cases hl : lookupMap m p.key with
  | some paths => exact mapWF_storeMap m p.key _ hm (by simp)
  | none => exact mapWF_storeMap m p.key _ hm (by simp)

theorem perm_storeDecomp (m : AggMap) (k : String) (l : List String)
    (hnd : (mapKeys m).Nodup) (hl : lookupMap m k = some l) :
    m.Perm ((k, l) :: m.filter (fun e => e.1 != k)) := by
  induction m with
  | nil => exact absurd hl (by simp [lookupMap])
  | cons e t ih =>
    have hndcons : e.1 ∉ mapKeys t ∧ (mapKeys t).Nodup := by
      have hmk : mapKeys (e :: t) = e.1 :: mapKeys t := rfl
      rw [hmk] at hnd
      exact List.nodup_cons.mp hnd
    by_cases hek : e.1 = k
    · have hval : e.2 = l := by
        unfold lookupMap at hl
        rw [List.find?_cons_of_pos _ (by simp [hek])] at hl
        simpa using hl
      have hkt : ∀ x ∈ t, x.1 ≠ k := by
        intro x hx hxk
        apply hndcons.1
        rw [hek, ← hxk]
        exact List.mem_map.mpr ⟨x, hx, rfl⟩
      have hfilt : t.filter (fun x => x.1 != k) = t := by
        rw [List.filter_eq_self]
        intro x hx
        simpa using hkt x hx
      have hee : e = (k, l) := by
        cases e
        simp only at hek hval
        rw [hek, hval]
      subst hee
      simp [List.filter_cons, hfilt]
    · have hl' : lookupMap t k = some l := by
        unfold lookupMap at hl ⊢
        rwa [List.find?_cons_of_neg _ (by simp [hek])] at hl
      have hperm := ih hndcons.2 hl'
      refine List.Perm.trans (List.Perm.cons e hperm) ?_
      have hfc : (e :: t).filter (fun x => x.1 != k) =
          e :: t.filter (fun x => x.1 != k) := by
        simp [List.filter_cons, hek]
      rw [hfc]
      exact List.Perm.swap _ _ _

/-! ### Multiset views of the aggregation map -/

/-- The multiset of all paths stored in the aggregation map. -/
def allMs (m : AggMap) : Multiset String :=
  (↑m : Multiset (String × List String)).bind (fun e => (↑e.2 : Multiset String))

/-- The multiset of paths stored in groups with more than one member
(the paths `processResults` would report, as a multiset). -/
def dupMs (m : AggMap) : Multiset String :=
  ((↑m : Multiset (String × List String)).filter (fun e => 1 < e.2.length)).bind
    (fun e => (↑e.2 : Multiset String))

theorem allMs_nil : allMs [] = 0 := rfl

theorem dupMs_nil : dupMs [] = 0 := rfl

theorem allMs_cons (e : String × List String) (m : AggMap) :
    allMs (e :: m) = ↑e.2 + allMs m := by
  unfold allMs
  have : ((↑(e :: m) : Multiset (String × List String))) = e ::ₘ ↑m := rfl
  rw [this, Multiset.cons_bind]

theorem dupMs_cons (e : String × List String) (m : AggMap) :
    dupMs (e :: m) = (if 1 < e.2.length then (↑e.2 : Multiset String) else 0) + dupMs m := by
  unfold dupMs
  have : ((↑(e :: m) : Multiset (String × List String))) = e ::ₘ ↑m := rfl
  rw [this, Multiset.filter_cons]
  by_cases h : 1 < e.2.length
  · simp [h, Multiset.cons_bind]
  · simp [h]

theorem allMs_append (m₁ m₂ : AggMap) : allMs (m₁ ++ m₂) = allMs m₁ + allMs m₂ := by
  unfold allMs
  have : ((↑(m₁ ++ m₂) : Multiset (String × List String))) = ↑m₁ + ↑m₂ := by
    exact_mod_cast rfl
  rw [this, Multiset.add_bind]

theorem dupMs_append (m₁ m₂ : AggMap) : dupMs (m₁ ++ m₂) = dupMs m₁ + dupMs m₂ := by
  unfold dupMs
  have : ((↑(m₁ ++ m₂) : Multiset (String × List String))) = ↑m₁ + ↑m₂ := by
    exact_mod_cast rfl
  rw [this, Multiset.filter_add, Multiset.add_bind]

theorem allMs_congr (m m' : AggMap) (h : m.Perm m') : allMs m = allMs m' := by
  unfold allMs
  rw [Multiset.coe_eq_coe.mpr h]

theorem dupMs_congr (m m' : AggMap) (h : m.Perm m') : dupMs m = dupMs m' := by
  unfold dupMs
  rw [Multiset.coe_eq_coe.mpr h]

theorem allMs_singleton (k : String) (v : List String) : allMs [(k, v)] = ↑v := by
  rw [show ([((k : String), v)] : AggMap) = (k, v) :: [] from rfl, allMs_cons, allMs_nil,
    add_zero]

theorem dupMs_singleton (k : String) (v : List String) :
    dupMs [(k, v)] = if 1 < v.length then (↑v : Multiset String) else 0 := by
  rw [show ([((k : String), v)] : AggMap) = (k, v) :: [] from rfl, dupMs_cons, dupMs_nil,
    add_zero]

theorem allMs_storeMap (m : AggMap) (k : String) (v : List String) :
    allMs (storeMap m k v) = allMs (m.filter (fun e => e.1 != k)) + ↑v := by
  unfold storeMap
  rw [allMs_append, allMs_singleton]

theorem dupMs_storeMap (m : AggMap) (k : String) (v : List String) :
    dupMs (storeMap m k v) =
      dupMs (m.filter (fun e => e.1 != k)) + if 1 < v.length then (↑v : Multiset String) else 0 := by
  unfold storeMap
  rw [dupMs_append, dupMs_singleton]

theorem allMs_decomp (m : AggMap) (k : String) (l : List String)
    (hnd : (mapKeys m).Nodup) (hl : lookupMap m k = some l) :
    allMs m = ↑l + allMs (m.filter (fun e => e.1 != k)) := by
  rw [allMs_congr m _ (perm_storeDecomp m k l hnd hl), allMs_cons]

theorem dupMs_decomp (m : AggMap) (k : String) (l : List String)
    (hnd : (mapKeys m).Nodup) (hl : lookupMap m k = some l) :
    dupMs m = (if 1 < l.length then (↑l : Multiset String) else 0) +
      dupMs (m.filter (fun e => e.1 != k)) := by
  rw [dupMs_congr m _ (perm_storeDecomp m k l hnd hl), dupMs_cons]

theorem dupMs_le_allMs (m : AggMap) : dupMs m ≤ allMs m := by
  unfold dupMs allMs
  obtain ⟨u, hu⟩ := Multiset.le_iff_exists_add.mp
    (Multiset.filter_le (fun e => 1 < e.2.length) (↑m : Multiset (String × List String)))
  conv_rhs => rw [hu]
  rw [Multiset.add_bind]
  exact Multiset.le_add_right _ _

/-! ### The consumption loop: map growth and streamed emissions -/

theorem streamStep_eq_none (m : AggMap) (p : Pair) (hl : lookupMap m p.key = none) :
    streamStep m p = (storeMap m p.key [p.path], []) := by
  unfold streamStep
  rw [hl]

theorem streamStep_eq_some (m : AggMap) (p : Pair) (paths : List String)
    (hl : lookupMap m p.key = some paths) :
    streamStep m p = (storeMap m p.key (paths ++ [p.path]), streamEmits paths p.path) := by
  unfold streamStep
  rw [hl]

theorem buildMap_nil (m : AggMap) : buildMap m [] = m := rfl

theorem buildMap_cons (m : AggMap) (p : Pair) (ps : List Pair) :
    buildMap m (p :: ps) = buildMap (streamStep m p).1 ps := rfl

theorem mapWF_buildMap (ps : List Pair) : ∀ m, mapWF m → mapWF (buildMap m ps) := by
  induction ps with
  | nil => exact fun m hm => hm
  | cons p ps ih =>
    intro m hm
    rw [buildMap_cons]
    exact ih _ (mapWF_streamStep m p hm)

theorem allMs_streamStep (m : AggMap) (p : Pair) (hm : mapWF m) :
    allMs (streamStep m p).1 = allMs m + {p.path} := by
  cases hl : lookupMap m p.key with
  | none =>
    rw [streamStep_eq_none m p hl]
    simp only
    rw [allMs_storeMap, filter_eq_of_lookup_none m p.key hl]
    rfl
  | some paths =>
    rw [streamStep_eq_some m p paths hl]
    simp only
    rw [allMs_storeMap, allMs_decomp m p.key paths hm.1 hl]
    have hsplit : (↑(paths ++ [p.path]) : Multiset String) = ↑paths + {p.path} := by
      exact_mod_cast rfl
    rw [hsplit]
    abel

theorem dupMs_streamStep (m : AggMap) (p : Pair) (hm : mapWF m) :
    dupMs (streamStep m p).1 = dupMs m + ↑(streamStep m p).2 := by
  cases hl : lookupMap m p.key with
  | none =>
    rw [streamStep_eq_none m p hl]
    simp only
    rw [dupMs_storeMap, filter_eq_of_lookup_none m p.key hl]
    have hlen : ¬ 1 < ([p.path] : List String).length := by simp
    rw [if_neg hlen]
    rfl
  | some paths =>
    rw [streamStep_eq_some m p paths hl]
    simp only
    rw [dupMs_storeMap, dupMs_decomp m p.key paths hm.1 hl]
    have hne : paths ≠ [] := by
      obtain ⟨e, he, _, hev⟩ := mem_of_lookupMap_eq_some m p.key paths hl
      rw [← hev]
      exact hm.2 e he
    by_cases h1 : paths.length = 1
    · obtain ⟨x, hx⟩ := List.length_eq_one.mp h1
      subst hx
      rw [if_pos (show 1 < ([x] ++ [p.path]).length by simp),
        if_neg (show ¬ 1 < ([x] : List String).length by simp)]
      have hemit : streamEmits [x] p.path = [x, p.path] := rfl
      rw [hemit]
      have hcoe : (↑([x] ++ [p.path]) : Multiset String) = ↑([x, p.path] : List String) := rfl
      rw [hcoe]
      abel
    · have h2 : 1 < paths.length := by
        have hpos : 0 < paths.length := List.length_pos.mpr hne
        omega
      rw [if_pos (show 1 < (paths ++ [p.path]).length by simp; omega), if_pos h2]
      have hemit : streamEmits paths p.path = [p.path] := by
        unfold streamEmits
        rw [if_neg h1]
        rfl
      rw [hemit]
      have hsplit : (↑(paths ++ [p.path]) : Multiset String) =
          ↑paths + ↑([p.path] : List String) := by exact_mod_cast rfl
      rw [hsplit]
      abel

theorem consumeStream_cons (m : AggMap) (p : Pair) (ps : List Pair) :
    consumeStream m (p :: ps) =
      (streamStep m p).2 ++ consumeStream (streamStep m p).1 ps := rfl

/-- The streamed output accounts exactly for the paths sitting in groups of
size at least two of the final map: the loop emits a path exactly when its
group reaches or has passed two members. -/
theorem consumeStream_dupMs (ps : List Pair) : ∀ m, mapWF m →
    (↑(consumeStream m ps) : Multiset String) + dupMs m = dupMs (buildMap m ps) := by
  induction ps with
  | nil =>
    intro m _
    rw [buildMap_nil]
    show (↑([] : List String) : Multiset String) + dupMs m = dupMs m
    simp
  | cons p ps ih =>
    intro m hm
    rw [buildMap_cons, consumeStream_cons]
    have hcoe : (↑((streamStep m p).2 ++ consumeStream (streamStep m p).1 ps) : Multiset String)
        = ↑(streamStep m p).2 + ↑(consumeStream (streamStep m p).1 ps) := by
      exact_mod_cast rfl
    rw [hcoe, ← ih (streamStep m p).1 (mapWF_streamStep m p hm),
      dupMs_streamStep m p hm]
    abel

/-- Every consumed pair's path lands in the final aggregation map: the map
after the run stores, as a multiset, exactly the paths of the consumed
pairs. -/
theorem allMs_buildMap (ps : List Pair) : ∀ m, mapWF m →
    allMs (buildMap m ps) = allMs m + ↑(ps.map (·.path)) := by
  induction ps with
  | nil =>
    intro m _
    rw [buildMap_nil]
    show allMs m = allMs m + ↑([] : List String)
    simp
  | cons p ps ih =>
    intro m hm
    rw [buildMap_cons, ih _ (mapWF_streamStep m p hm), allMs_streamStep m p hm]
    have hcons : (↑((p :: ps).map (·.path)) : Multiset String) =
        {p.path} + ↑(ps.map (·.path)) := by
      rw [List.map_cons]
      rw [Multiset.singleton_add]
      rfl
    rw [hcons]
    abel

/-! ### Group contents of the final map -/

/-- How a key's group grows when the pairs contributing `t` for that key
are consumed on top of a map where the key was bound to `o`. -/
def extendGroup (o : Option (List String)) (t : List String) : Option (List String) :=
  match o with
  | some l => some (l ++ t)
  | none => if t = [] then none else some t

theorem pathsOfKey_nil (k : String) : pathsOfKey k [] = [] := rfl

theorem pathsOfKey_cons (k : String) (p : Pair) (ps : List Pair) :
    pathsOfKey k (p :: ps) =
      (if p.key = k then [p.path] else []) ++ pathsOfKey k ps := by
  unfold pathsOfKey
  by_cases h : p.key = k
  · rw [List.filter_cons_of_pos (by simp [h])]
    simp [h]
  · rw [List.filter_cons_of_neg (by simp [h])]
    simp [h]

theorem lookupMap_streamStep (m : AggMap) (p : Pair) (k : String) :
    lookupMap (streamStep m p).1 k =
      if k = p.key then some ((lookupMap m p.key).getD [] ++ [p.path])
      else lookupMap m k := by
  cases hl : lookupMap m p.key with
  | none =>
    rw [streamStep_eq_none m p hl]
    simp only
    rw [lookupMap_storeMap]
    by_cases hk : k = p.key
    · simp [hk, hl]
    · simp [hk]
  | some paths =>
    rw [streamStep_eq_some m p paths hl]
    simp only
    rw [lookupMap_storeMap]
    by_cases hk : k = p.key
    · simp [hk, hl]
    · simp [hk]

/-- The group stored for `k` after consuming `ps` extends whatever was
stored before by the paths of the pairs of `ps` keyed `k`, in consumption
order. -/
theorem lookupMap_buildMap (ps : List Pair) : ∀ (m : AggMap) (k : String),
    lookupMap (buildMap m ps) k = extendGroup (lookupMap m k) (pathsOfKey k ps) := by
  induction ps with
  | nil =>
    intro m k
    rw [buildMap_nil, pathsOfKey_nil]
    cases lookupMap m k with
    | none => rfl
    | some l => simp [extendGroup]
  | cons p ps ih =>
    intro m k
    rw [buildMap_cons, ih, pathsOfKey_cons, lookupMap_streamStep]
    by_cases hk : k = p.key
    · subst hk
      rw [if_pos rfl, if_pos rfl]
      cases hl : lookupMap m p.key with
      | none => simp [extendGroup]
      | some l => simp [extendGroup]
    · rw [if_neg hk, if_neg (fun h => hk h.symm)]
      simp

/-- The final map binds `k` exactly when some consumed pair carries `k`,
and then stores that key's paths in consumption order. -/
theorem lookupMap_finalMap (ps : List Pair) (k : String) :
    lookupMap (finalMap ps) k =
      if pathsOfKey k ps = [] then none else some (pathsOfKey k ps) := by
  unfold finalMap
  rw [lookupMap_buildMap]
  rfl

theorem pathsOfKey_ne_nil_of_mem_keys (ps : List Pair) (k : String)
    (h : k ∈ mapKeys (finalMap ps)) : pathsOfKey k ps ≠ [] := by
  intro hnil
  apply lookupMap_ne_none_of_mem_keys (finalMap ps) k h
  rw [lookupMap_finalMap, if_pos hnil]

theorem mem_pairKeys_of_pathsOfKey_ne_nil (ps : List Pair) (k : String)
    (h : pathsOfKey k ps ≠ []) : k ∈ ps.map (·.key) := by
  unfold pathsOfKey at h
  cases hf : ps.filter (fun p => p.key == k) with
  | nil => rw [hf] at h; exact absurd rfl h
  | cons p t =>
    have hp : p ∈ ps.filter (fun p => p.key == k) := by rw [hf]; exact List.mem_cons_self p t
    have hmem := List.mem_filter.mp hp
    have : p.key = k := by simpa using hmem.2
    exact this ▸ List.mem_map.mpr ⟨p, hmem.1, rfl⟩

/-! ### `processResults` over an arbitrary `Range` order -/

theorem rangeStep_isNil (m : AggMap) (s : GoSlice) (k : String)
    (h : s.isNil = false) : (rangeStep m s k).isNil = false := by
  unfold rangeStep
  cases lookupMap m k with
  | none => exact h
  | some paths =>
    by_cases hlen : 1 < paths.length
    · simp [hlen, GoSlice.appendAll, h]
    · simp [hlen, h]

theorem processFold_isNil (m : AggMap) : ∀ (order : List String) (s : GoSlice),
    s.isNil = false → (order.foldl (rangeStep m) s).isNil = false := by
  intro order
  induction order with
  | nil => exact fun s h => h
  | cons k order ih =>
    intro s h
    rw [List.foldl_cons]
    exact ih _ (rangeStep_isNil m s k h)

theorem processFold_elems (m : AggMap) (g : String → List String) :
    ∀ (order : List String) (s : GoSlice),
      (∀ k ∈ order, lookupMap m k = some (g k)) →
      (order.foldl (rangeStep m) s).elems =
        s.elems ++ ((order.map g).filter (fun l => 1 < l.length)).flatten := by
  intro order
  induction order with
  | nil =>
    intro s _
    simp
  | cons k order ih =>
    intro s hall
    rw [List.foldl_cons, ih _ (fun k' hk' => hall k' (List.mem_cons_of_mem k hk'))]
    have hk : lookupMap m k = some (g k) := hall k (List.mem_cons_self k order)
    unfold rangeStep
    rw [hk]
    simp only [List.map_cons, List.filter_cons]
    by_cases hlen : 1 < (g k).length
    · rw [if_pos (by simpa using hlen)]
      simp [GoSlice.appendAll, hlen]
    · rw [if_neg (by simpa using hlen)]
      simp [hlen]

theorem processResults_elems (m : AggMap) (g : String → List String)
    (order : List String) (hall : ∀ k ∈ order, lookupMap m k = some (g k)) :
    (processResults m order).elems =
      ((order.map g).filter (fun l => 1 < l.length)).flatten := by
  unfold processResults
  rw [processFold_elems m g order _ hall]
  rfl

theorem processResults_isNil (m : AggMap) (order : List String) :
    (processResults m order).isNil = false :=
  processFold_isNil m order _ rfl

theorem streamRun_eq (ps : List Pair) : ∀ m,
    streamRun m ps = (consumeStream m ps).map StreamEvent.emit ++ [StreamEvent.closeChan] := by
  induction ps with
  | nil => intro m; rfl
  | cons p ps ih =>
    intro m
    show (streamStep m p).2.map StreamEvent.emit ++ streamRun (streamStep m p).1 ps = _
    rw [ih, consumeStream_cons, List.map_append, List.append_assoc]

/-! ### Claims -/

/-- C1: in streaming mode, a consumed pair whose key is already stored with
exactly one path makes `consumePairs` emit that first stored path followed
by the new path to `dupesChan`; a key stored with more than one path
yields only the new path; a pair with a new key stores a singleton group
and emits nothing. -/
theorem consumePairs_streaming_emission (m : AggMap) (p : Pair) :
    (∀ l, lookupMap m p.key = some l → l.length = 1 →
      (streamStep m p).2 = [l.getD 0 "", p.path]) ∧
    (∀ l, lookupMap m p.key = some l → 1 < l.length →
      (streamStep m p).2 = [p.path]) ∧
    (lookupMap m p.key = none →
      streamStep m p = (storeMap m p.key [p.path], [])) := by
  refine ⟨?_, ?_, ?_⟩
  · intro l hl hlen
    rw [streamStep_eq_some m p l hl]
    show streamEmits l p.path = _
    unfold streamEmits
    rw [if_pos hlen]
    rfl
  · intro l hl hlen
    rw [streamStep_eq_some m p l hl]
    show streamEmits l p.path = _
    unfold streamEmits
    rw [if_neg (by omega)]
    rfl
  · exact streamStep_eq_none m p

theorem consumePairs_streaming_emission_witness :
    ((lookupMap [("k", ["a"])] "k" = some ["a"] ∧ (["a"] : List String).length = 1) ∧
      (streamStep [("k", ["a"])] ⟨"k", "b"⟩).2 = ["a", "b"]) ∧
    ((lookupMap [("k", ["a", "b"])] "k" = some ["a", "b"] ∧
        1 < (["a", "b"] : List String).length) ∧
      (streamStep [("k", ["a", "b"])] ⟨"k", "c"⟩).2 = ["c"]) ∧
    (lookupMap [] "k" = none ∧
      streamStep [] ⟨"k", "a"⟩ = (storeMap [] "k" ["a"], [])) :=
  ⟨⟨⟨by decide, by decide⟩,
      (consumePairs_streaming_emission [("k", ["a"])] ⟨"k", "b"⟩).1 ["a"]
        (by decide) (by decide)⟩,
    ⟨⟨by decide, by decide⟩,
      (consumePairs_streaming_emission [("k", ["a", "b"])] ⟨"k", "c"⟩).2.1 ["a", "b"]
        (by decide) (by decide)⟩,
    by decide,
    (consumePairs_streaming_emission [] ⟨"k", "a"⟩).2.2 (by decide)⟩

/-- C2: `run` closes the pair channel only after the worker pool's wait
has returned — in `run`'s program-order trace the pool wait strictly
precedes the channel close — and the consumption loop of `consumePairs`
processes every pair the channel delivered and then stops: the final map
stores exactly the consumed paths (no pair is dropped), and in streaming
mode the loop's trace ends with the single close of the output channel.
The loop's termination is the totality of the consumption fold, which is
driven exactly by the channel contents ending. -/
theorem run_close_after_drain (streaming : Bool) (ps : List Pair) :
    (runTrace streaming).indexOf RunEvent.waitPool <
      (runTrace streaming).indexOf RunEvent.closePairs ∧
    allMs (finalMap ps) = ↑(ps.map (·.path)) ∧
    (streamRun [] ps).getLast? = some StreamEvent.closeChan := by
  refine ⟨?_, ?_, ?_⟩
  · cases streaming <;> decide
  · have h := allMs_buildMap ps [] mapWF_nil
    rw [allMs_nil, zero_add] at h
    exact h
  · rw [streamRun_eq ps []]
    exact List.getLast?_concat _

/-- C4 as stated is false: `StreamResults` calls `run`, and `run` reaches
its return only after `dup.g.Wait()` — the return event does not precede
the pool wait in the streaming trace, so the call does block beyond
setup (which is why its own comment requires running it in a separate
goroutine). -/
theorem streamResults_nonblocking_counterexample :
    runModel false true = Except.ok (runTrace true) ∧
    ¬ (runTrace true).indexOf RunEvent.ret <
        (runTrace true).indexOf RunEvent.waitPool := by
  exact ⟨rfl, by decide⟩

/-- C4 amended: the streaming-mode invocation blocks until the search
completes — it returns only after the pool wait and the pair-channel
close — while duplicate paths are delivered incrementally on the caller's
output channel, which is closed exactly once, on completion, after the
last emission. -/
theorem streamResults_blocks_until_done (ps : List Pair) :
    (runTrace true).indexOf RunEvent.waitPool <
      (runTrace true).indexOf RunEvent.ret ∧
    (runTrace true).indexOf RunEvent.closePairs <
      (runTrace true).indexOf RunEvent.ret ∧
    streamRun [] ps =
      (consumeStream [] ps).map StreamEvent.emit ++ [StreamEvent.closeChan] :=
  ⟨by decide, by decide, streamRun_eq ps []⟩

/-- C5: contrary to the claim (and to the README, which documents
`Paths []string` with a multi-root example), `run` submits exactly one
walker task, for the single configured root `c.Path`; a second configured
root is never walked. -/
theorem run_walks_single_root (c : Cfg) :
    runSubmittedWalks c = [c.path] ∧ (runSubmittedWalks c).length = 1 :=
  ⟨rfl, rfl⟩

/-- A configuration whose filters accept everything. -/
def cfgNoFilter : Cfg :=
  { path := "/root", skipDir := fun _ => false, skipFile := fun _ => false,
    keyGenerator := fun _ => Except.ok "k", workers := 1 }

/-- A regular-file entry whose `Info()` call fails. -/
def deStatFailure : DirEntry :=
  { isDir := false, isRegular := true, info := Except.error "permission denied" }

/-- C6 as stated is false: a failure to stat an accepted regular file
(`de.Info()` returning an error) is silently skipped by the walk callback
— it returns nil and submits no task — instead of aborting the search. -/
theorem walk_stat_error_swallowed_counterexample :
    deStatFailure.info = Except.error "permission denied" ∧
    cfgNoFilter.skipDir "/root/f" = false ∧
    walkCallback false cfgNoFilter "/root/f" deStatFailure none =
      (WalkResult.cont, false) :=
  ⟨rfl, rfl, rfl⟩

/-- C6 amended: a traversal error handed to the walk callback by
`filepath.WalkDir` is propagated as a fatal error for the whole search
when no shutdown is in progress; however, once shutdown is signaled such
errors are swallowed, and an error from stat-ing an accepted regular file
(`de.Info()`) is silently skipped like a zero-size file rather than
propagated. -/
theorem walk_error_propagation (c : Cfg) (path : String) (de : DirEntry) (e : String) :
    walkCallback false c path de (some e) = (WalkResult.fail e, false) ∧
    walkCallback true c path de (some e) = (WalkResult.cont, false) ∧
    (de.isDir = false → de.isRegular = true → c.skipFile path = false →
      de.info = Except.error e →
      walkCallback false c path de none = (WalkResult.cont, false)) := by
  refine ⟨rfl, rfl, ?_⟩
  intro h1 h2 h3 h4
  unfold walkCallback
  simp [h1, h2, h3, h4]

theorem walk_error_propagation_witness :
    (deStatFailure.isDir = false ∧ deStatFailure.isRegular = true ∧
      cfgNoFilter.skipFile "/root/f" = false ∧
      deStatFailure.info = Except.error "permission denied") ∧
    walkCallback false cfgNoFilter "/root/f" deStatFailure (some "boom") =
      (WalkResult.fail "boom", false) ∧
    walkCallback true cfgNoFilter "/root/f" deStatFailure (some "boom") =
      (WalkResult.cont, false) ∧
    walkCallback false cfgNoFilter "/root/f" deStatFailure none =
      (WalkResult.cont, false) :=
  ⟨⟨rfl, rfl, rfl, rfl⟩,
    (walk_error_propagation cfgNoFilter "/root/f" deStatFailure "boom").1,
    (walk_error_propagation cfgNoFilter "/root/f" deStatFailure "boom").2.1,
    (walk_error_propagation cfgNoFilter "/root/f" deStatFailure "permission denied").2.2
      rfl rfl rfl rfl⟩

/-- C7: a key generator returning an empty key makes `producePair` fail
with the dedicated configuration error message (naming the offending
path), while a generator failure is propagated verbatim; the two error
classes are distinguishable whenever the generator's own error is not
literally the configuration message. -/
theorem producePair_empty_key_error (keyGen keyGen' : String → Except String String)
    (path : String) (e : String) (hempty : keyGen path = Except.ok "")
    (hgen : keyGen' path = Except.error e) (hne : e ≠ emptyKeyMsg path) :
    producePair false keyGen path = Except.error (emptyKeyMsg path) ∧
    producePair false keyGen' path = Except.error e ∧
    producePair false keyGen path ≠ producePair false keyGen' path := by
  have h1 : producePair false keyGen path = Except.error (emptyKeyMsg path) := by
    unfold producePair
    rw [hempty]
    rfl
  have h2 : producePair false keyGen' path = Except.error e := by
    unfold producePair
    rw [hgen]
    rfl
  refine ⟨h1, h2, ?_⟩
  rw [h1, h2]
  intro hc
  have : emptyKeyMsg path = e := by
    simpa using hc
  exact hne this.symm

theorem producePair_empty_key_error_witness :
    ((fun _ => (Except.ok "" : Except String String)) "p" = Except.ok "" ∧
      (fun _ => (Except.error "boom" : Except String String)) "p" = Except.error "boom" ∧
      ("boom" : String) ≠ emptyKeyMsg "p") ∧
    (producePair false (fun _ => Except.ok "") "p" = Except.error (emptyKeyMsg "p") ∧
      producePair false (fun _ => Except.error "boom") "p" = Except.error "boom" ∧
      producePair false (fun _ => Except.ok "") "p" ≠
        producePair false (fun _ => Except.error "boom") "p") :=
  ⟨⟨rfl, rfl, by decide⟩,
    producePair_empty_key_error (fun _ => Except.ok "") (fun _ => Except.error "boom")
      "p" "boom" rfl rfl (by decide)⟩

/-- C8: once the cancellation flag is observed set, `producePair` returns
immediately with no error and no pair (`Except.ok none`), and its result
does not depend on the key generator at all (the generator is never
consulted), so cancellation alone never makes the search fail; the
producer trivially terminates. -/
theorem producePair_cancellation (keyGen keyGen' : String → Except String String)
    (path : String) :
    producePair true keyGen path = Except.ok none ∧
    producePair true keyGen path = producePair true keyGen' path :=
  ⟨rfl, rfl⟩

theorem lookup_order_of_perm (ps : List Pair) (order : List String)
    (h : order.Perm (mapKeys (finalMap ps))) :
    ∀ k ∈ order, lookupMap (finalMap ps) k = some (pathsOfKey k ps) := by
  intro k hk
  have hmem : k ∈ mapKeys (finalMap ps) := h.mem_iff.mp hk
  have hne := pathsOfKey_ne_nil_of_mem_keys ps k hmem
  rw [lookupMap_finalMap, if_neg hne]

/-- Four pairs forming two duplicate groups; enough to expose the map's
iteration order in the batch result. -/
def c3pairs : List Pair := [⟨"1", "a"⟩, ⟨"1", "b"⟩, ⟨"2", "c"⟩, ⟨"2", "d"⟩]

/-- C3 as stated is false: `processResults` iterates the concurrent map
with `Range`, whose order is unspecified — under the admissible iteration
order `["2", "1"]` (a permutation of the final map's keys) the flat batch
output differs from the spec's discovery-ordered concatenation of
groups. -/
theorem processResults_discovery_order_counterexample :
    List.Perm ["2", "1"] (mapKeys (finalMap c3pairs)) ∧
    (processResults (finalMap c3pairs) ["2", "1"]).elems ≠ specBatchResult c3pairs :=
  ⟨by decide, by decide⟩

/-- C3 amended: in batch mode the single final result is exactly the
groups with at least two members, concatenated flat, each group's paths in
discovery (consumption) order — but with the groups ordered by the map's
unspecified iteration order rather than by discovery order; singleton
groups contribute nothing, and the result slice is non-nil. -/
theorem processResults_batch_output (ps : List Pair) (order : List String)
    (horder : order.Perm (mapKeys (finalMap ps))) :
    (processResults (finalMap ps) order).isNil = false ∧
    (processResults (finalMap ps) order).elems =
      ((order.map (fun k => pathsOfKey k ps)).filter (fun l => 1 < l.length)).flatten :=
  ⟨processResults_isNil _ _,
    processResults_elems _ _ _ (lookup_order_of_perm ps order horder)⟩

theorem processResults_batch_output_witness :
    List.Perm ["1", "2"] (mapKeys (finalMap c3pairs)) ∧
    ((processResults (finalMap c3pairs) ["1", "2"]).isNil = false ∧
      (processResults (finalMap c3pairs) ["1", "2"]).elems =
        (((["1", "2"] : List String).map (fun k => pathsOfKey k c3pairs)).filter
          (fun l => 1 < l.length)).flatten) :=
  ⟨by decide, processResults_batch_output c3pairs ["1", "2"] (by decide)⟩

/-- C9: in streaming mode each path reaches the output channel at most
once over the whole run — provided the consumed pairs carry pairwise
distinct paths (each file is walked once), the emitted stream has no
duplicates: a path is emitted either as its group's remembered first
member when the group grows from one to two, or as the currently consumed
pair's path, and each pair is consumed exactly once by the fold. -/
theorem consumeStream_paths_nodup (ps : List Pair)
    (h : (ps.map (·.path)).Nodup) : (consumeStream [] ps).Nodup := by
  have hinv := consumeStream_dupMs ps [] mapWF_nil
  rw [dupMs_nil, add_zero] at hinv
  have hall := allMs_buildMap ps [] mapWF_nil
  rw [allMs_nil, zero_add] at hall
  have hle : (↑(consumeStream [] ps) : Multiset String) ≤ ↑(ps.map (·.path)) := by
    rw [hinv, ← hall]
    exact dupMs_le_allMs _
  exact Multiset.coe_nodup.mp (Multiset.nodup_of_le hle (Multiset.coe_nodup.mpr h))

theorem consumeStream_paths_nodup_witness :
    ((([⟨"1", "a"⟩, ⟨"1", "b"⟩, ⟨"1", "c"⟩, ⟨"2", "d"⟩] : List Pair).map (·.path)).Nodup) ∧
    (consumeStream [] [⟨"1", "a"⟩, ⟨"1", "b"⟩, ⟨"1", "c"⟩, ⟨"2", "d"⟩]).Nodup :=
  ⟨by decide, consumeStream_paths_nodup _ (by decide)⟩

/-- C10: in batch mode, when no key's group reaches two members, the
final result is the empty non-nil slice (`res := []string\x7b\x7d` is
never appended to), and `GetResults` still delivers it, together with the
pool's error, also when the search ended with an error — delivery is
total in the error argument. -/
theorem getResults_empty_nonnil (e : Option String) (ps : List Pair) (order : List String)
    (horder : order.Perm (mapKeys (finalMap ps)))
    (hsingle : ∀ k ∈ ps.map (·.key), (pathsOfKey k ps).length ≤ 1) :
    (GetResultsModel e ps order).1.isNil = false ∧
    (GetResultsModel e ps order).1.elems = [] ∧
    (GetResultsModel e ps order).2 = e := by
  have hlook := lookup_order_of_perm ps order horder
  refine ⟨processResults_isNil _ _, ?_, rfl⟩
  show (processResults (finalMap ps) order).elems = []
  rw [processResults_elems _ (fun k => pathsOfKey k ps) _ hlook]
  have hfilt : ((order.map (fun k => pathsOfKey k ps)).filter (fun l => 1 < l.length)) = [] := by
    rw [List.filter_eq_nil_iff]
    intro l hl
    obtain ⟨k, hk, rfl⟩ := List.mem_map.mp hl
    by_cases hnil : pathsOfKey k ps = []
    · simp [hnil]
    · have hmemkeys : k ∈ ps.map (·.key) := mem_pairKeys_of_pathsOfKey_ne_nil ps k hnil
      have hlen := hsingle k hmemkeys
      simp only [decide_eq_true_eq]
      omega
  rw [hfilt]
  rfl

theorem getResults_empty_nonnil_witness :
    (List.Perm ["1", "2"] (mapKeys (finalMap [⟨"1", "a"⟩, ⟨"2", "b"⟩])) ∧
      ∀ k ∈ ([⟨"1", "a"⟩, ⟨"2", "b"⟩] : List Pair).map (·.key),
        (pathsOfKey k [⟨"1", "a"⟩, ⟨"2", "b"⟩]).length ≤ 1) ∧
    ((GetResultsModel (some "walk failed") [⟨"1", "a"⟩, ⟨"2", "b"⟩] ["1", "2"]).1.isNil
        = false ∧
      (GetResultsModel (some "walk failed") [⟨"1", "a"⟩, ⟨"2", "b"⟩] ["1", "2"]).1.elems
        = [] ∧
      (GetResultsModel (some "walk failed") [⟨"1", "a"⟩, ⟨"2", "b"⟩] ["1", "2"]).2
        = some "walk failed") :=
  ⟨⟨by decide, by decide⟩,
    getResults_empty_nonnil (some "walk failed") [⟨"1", "a"⟩, ⟨"2", "b"⟩] ["1", "2"]
      (by decide) (by decide)⟩

end Dupescout
